import Mathlib

/-!
Verification of the dynamic tool discovery and dispatch engine of the
sdk-to-mcp-converter repository.

The development shallowly embeds the two core modules:

* `core/introspector.py` — `generate_schema_for_method`, `_discover_tools_recursive`
  and `discover_tools`, which walk a client object graph and produce tool schemas;
* `core/executor.py` — `serialize_result`, `_execute_and_serialize` and
  `execute_tool`, which resolve a tool name back to an operation, execute it and
  serialize the result;

together with the HTTP status mapping of `main.py`'s `execute_tool_endpoint`.

Python objects are modelled as finite trees of named members (bound methods,
attribute sub-objects that expose further members, and other attributes), and
Python dictionaries as association lists.  Tool names are ordinary strings;
Python's `str.split("__")` is modelled character by character.  The recursive
discovery walk of the source is untyped and unbounded (the source does not guard
against cyclic object graphs), so the embedding gives it explicit fuel; every
theorem either quantifies over the fuel or fixes a concrete sufficient amount.
-/

set_option maxHeartbeats 1000000

namespace SdkMcp

/-- Greedy left-to-right split of a character list on the two-character
separator consisting of two underscores, exactly as Python's
`str.split("__")` behaves on the corresponding string. -/
def splitSep : List Char → List (List Char)
  | [] => [[]]
  | [c] => [[c]]
  | c :: d :: rest =>
    if c = '_' ∧ d = '_' then [] :: splitSep rest
    else
      match splitSep (d :: rest) with
      | s :: ss => (c :: s) :: ss
      | [] => [[c]]

/-- Python `tool_name.split('__')`, via the character-level split. -/
def splitDunder (s : String) : List String := (splitSep s.data).map String.mk

/-- The character list of a string is separator-free and does not end in an
underscore.  Segments with this property survive a round trip through
concatenation with the double-underscore separator followed by `splitSep`. -/
def cleanSeg (s : String) : Prop :=
  splitSep s.data = [s.data] ∧ s.data.getLast? ≠ some '_'

instance (s : String) : Decidable (cleanSeg s) := by
  unfold cleanSeg; exact instDecidableAnd

/-- Joins segments with the double-underscore separator (the inverse direction
of `splitSep`). -/
def joinSegs : List (List Char) → List Char
  | [] => []
  | [s] => s
  | s :: rest => s ++ '_' :: '_' :: joinSegs rest

/-- `parts = tool_name.split('__'); alias = parts[0]; object_path = parts[1:-1];
method_name = parts[-1]` from `execute_tool`.  The split of any string is
nonempty, so the defaults of `headD`/`getLastD` are never used. -/
def parseToolName (s : String) : String × List String × String :=
  (let parts := splitDunder s
   (parts.headD "", (parts.drop 1).dropLast, parts.getLastD ""))

/-- Extends a name by one `__`-separated component per list element, as the
recursive discovery does with `f"{name_prefix}__{name}"`. -/
def extendName (pre : String) (names : List String) : String :=
  names.foldl (fun a n => a ++ "__" ++ n) pre

/-- Python `class_path_str.replace('.', '_')` used to mangle canonical paths. -/
def mangle (s : String) : String :=
  String.mk (s.data.map (fun c => if c = '.' then '_' else c))

/-- Python `name.startswith('_')`: the private-member marker test of the
introspector's eligibility filter. -/
def startsUnderscore (s : String) : Bool :=
  match s.data with
  | [] => false
  | c :: _ => c = '_'

/-- First-match association-list lookup, modelling Python `dict.get(key)` (and
`getattr(obj, name, None)` over an object's attribute dictionary). -/
def alookup {α : Type} : List (String × α) → String → Option α
  | [], _ => none
  | p :: ps, k => if p.1 = k then some p.2 else alookup ps k

/-- The declared type of a reflected parameter, as distinguished by
`generate_schema_for_method`: it tests membership of `param.annotation` in
`(int, float)`, `(bool,)` and `(list, dict)`; `str`, a missing declaration and
anything else all fall through to the default. -/
inductive Ann : Type where
  | aInt | aFloat | aBool | aList | aDict | aStr | aEmpty | aOther
deriving DecidableEq

/-- A reflected parameter of a method signature: its name, declared type, and
whether it carries a default value (`param.default is inspect.Parameter.empty`
is the negation of `hasDefault`). -/
structure Param where
  name : String
  ann : Ann
  hasDefault : Bool
deriving DecidableEq

/-- A JSON-serializable runtime value, modelling the results SDK operations
return.  `vIter` is a value that has `__iter__` but is not a `list`, `dict` or
`str` (a paginated iterator), carrying the finite stream of elements it would
yield and its `str(...)` rendering.  `vObj` is any other non-native object,
carrying the result of its `to_dict()` conversion when it has one, and its
`str(...)` rendering when that conversion does not raise.  Floats are carried
opaquely (no float arithmetic occurs anywhere in the engine). -/
inductive RValue : Type where
  | vStr : String → RValue
  | vInt : Int → RValue
  | vFloat : String → RValue
  | vBool : Bool → RValue
  | vNone : RValue
  | vList : List RValue → RValue
  | vDict : List (String × RValue) → RValue
  | vIter : List RValue → String → RValue
  | vObj : Option RValue → Option String → RValue

/-- What invoking an operation does: return a value or raise an exception with
a message. -/
inductive Outcome : Type where
  | returns : RValue → Outcome
  | raises : String → Outcome

/-- A bound method of a client object: its docstring as `inspect.getdoc` would
return it (`none` when there is no docstring), its reflected parameters in
declaration order, and its invocation behaviour. -/
structure MethodSig where
  doc : Option String
  params : List Param
  outcome : Outcome

mutual
/-- A member of a client object as the introspector classifies it:
a bound method (`inspect.ismethod`), an attribute sub-object that exposes
further members (`hasattr(member, '__dict__')`, not a routine, class or
module), or any other attribute (primitive values, classes, modules).
Non-group members carry their Python truthiness. -/
inductive Mem : Type where
  | method : MethodSig → Mem
  | group : Obj → Mem
  | plain : Bool → Mem

/-- A client object: its named attribute dictionary in iteration order, and its
Python truthiness (`if not current_object` checks). -/
inductive Obj : Type where
  | mk : List (String × Mem) → Bool → Obj
end

/-- The attribute dictionary of an object. -/
def Obj.members : Obj → List (String × Mem)
  | .mk ms _ => ms

/-- The Python truthiness of an object. -/
def Obj.truthy : Obj → Bool
  | .mk _ b => b

/-- The Python truthiness of a member: bound methods are always truthy. -/
def Mem.truthy : Mem → Bool
  | .method _ => true
  | .group o => o.truthy
  | .plain b => b

/-- `getattr(o, n, None)`. -/
def Obj.attr (o : Obj) (n : String) : Option Mem :=
  alookup o.members n

/-- The object a member exposes when the engine keeps walking through it:
a group exposes its own members; methods and plain attributes expose none
relevant to the engine.  Truthiness is preserved. -/
def Mem.toObj : Mem → Obj
  | .group o => o
  | .method _ => .mk [] true
  | .plain b => .mk [] b

/-- Whether the auto-discovery recursion descends into this member:
`not inspect.isroutine(member) and not inspect.isclass(member) and
not inspect.ismodule(member) and hasattr(member, '__dict__')`. -/
def Mem.isGroupMember : Mem → Bool
  | .group _ => true
  | _ => false

/-- A discovery configuration node (one `classes_to_expose` entry or one
`operations_groups` entry): presence and contents of the `operations_groups`
key, presence and contents of the `include_methods` key (the key may be present
with a null value, which differs from an absent key), and the `name` key used
by group entries. -/
inductive Config : Type where
  | mk : Option (List Config) → Option (Option (List String)) → Option String → Config

/-- The `operations_groups` entry of a config (`none` = key absent). -/
def Config.opGroups : Config → Option (List Config)
  | .mk g _ _ => g

/-- The `include_methods` entry of a config (`none` = key absent;
`some none` = key present with a null value). -/
def Config.includeMethods : Config → Option (Option (List String))
  | .mk _ i _ => i

/-- The `name` entry of a config. -/
def Config.cfgName : Config → Option String
  | .mk _ _ n => n

/-- `include_methods is None or name in include_methods`. -/
def matchesInclude (inc : Option (List String)) (n : String) : Bool :=
  match inc with
  | none => true
  | some l => l.contains n

/-- The fixed parameter exclusion set of `generate_schema_for_method`. -/
def excluded_params : List String :=
  ["self", "kwargs", "args", "async_req", "preload_content",
   "_request_timeout", "_return_http_data_only", "custom_headers", "visibility"]

/-- The inferred JSON-schema type of a declared parameter type. -/
def annType : Ann → String
  | .aInt => "number"
  | .aFloat => "number"
  | .aBool => "boolean"
  | .aList => "object"
  | .aDict => "object"
  | _ => "string"

/-- The fallback description for operations without a docstring. -/
def NO_DESCRIPTION : String := "No description available."

/-- `docstring.split('\n')[0]` on a character list. -/
def takeUntilNewline : List Char → List Char
  | [] => []
  | c :: rest => if c = '\n' then [] else c :: takeUntilNewline rest

/-- The first line of a string. -/
def firstLine (s : String) : String := String.mk (takeUntilNewline s.data)

/-- `(inspect.getdoc(method) or "No description available.").split('\n')[0]`:
a missing or empty (falsy) docstring falls back to the fixed placeholder. -/
def docDescription (doc : Option String) : String :=
  firstLine (match doc with
    | some d => if d = "" then NO_DESCRIPTION else d
    | none => NO_DESCRIPTION)

/-- The `properties` mapping of `generate_schema_for_method`: every reflected
parameter outside the exclusion set, mapped to its inferred type, in
declaration order. -/
def schemaProps (params : List Param) : List (String × String) :=
  params.filterMap (fun p =>
    if p.name ∈ excluded_params then none else some (p.name, annType p.ann))

/-- The `required` list of `generate_schema_for_method`: every reflected
parameter outside the exclusion set that has no default value. -/
def schemaRequired (params : List Param) : List String :=
  params.filterMap (fun p =>
    if p.name ∈ excluded_params then none
    else if p.hasDefault then none else some p.name)

/-- One tool schema record, flattened: the `function.name` (set by the
discovery walk), `function.description`, and the parameter schema
(`properties` as name-to-type pairs, plus the `required` list). -/
structure Tool where
  name : String
  description : String
  properties : List (String × String)
  required : List String
deriving DecidableEq

/-- `generate_schema_for_method` followed by `schema['function']['name'] =
tool_name`. -/
def genSchemaTool (toolName : String) (m : MethodSig) : Tool :=
  { name := toolName
    description := docDescription m.doc
    properties := schemaProps m.params
    required := schemaRequired m.params }

/-- The method-discovery loop shared by both branches of
`_discover_tools_recursive`: every bound method whose name does not start with
an underscore and matches the include filter yields a schema named
`f"{name_prefix}__{name}"`. -/
def methodTools (o : Obj) (inc : Option (List String)) (pre : String) : List Tool :=
  o.members.filterMap (fun p =>
    match p.2 with
    | .method m =>
      if !startsUnderscore p.1 && matchesInclude inc p.1 then
        some (genSchemaTool (pre ++ "__" ++ p.1) m)
      else none
    | _ => none)

/-- `_discover_tools_recursive`, with explicit fuel bounding the recursion
depth (the source recursion is unbounded and unguarded against cycles).

Guided path (the `operations_groups` key is present): methods are discovered
at the current level only when the `include_methods` key is also present, and
recursion descends only into sub-groups named by `operations_groups` entries,
skipping entries without a truthy `name` and names that do not resolve to a
truthy attribute.

Auto path (no `operations_groups` key): all eligible methods are discovered
(filtered by `include_methods` when that key is present), and recursion
descends into every public non-routine, non-class, non-module member with an
attribute dictionary, under an empty config. -/
def discover : Nat → Obj → Config → String → List Tool
  | 0, _, _, _ => []
  | fuel + 1, o, cfg, pre =>
    match cfg.opGroups with
    | some gs =>
      (match cfg.includeMethods with
       | some inc => methodTools o inc pre
       | none => []) ++
      gs.flatMap (fun gc =>
        match gc.cfgName with
        | none => []
        | some g =>
          if g = "" then []
          else
            match o.attr g with
            | some m =>
              if m.truthy then discover fuel m.toObj gc (pre ++ "__" ++ g) else []
            | none => [])
    | none =>
      methodTools o cfg.includeMethods.join pre ++
      o.members.flatMap (fun p =>
        if !startsUnderscore p.1 && p.2.isGroupMember then
          discover fuel p.2.toObj (Config.mk none none none) (pre ++ "__" ++ p.1)
        else [])

/-- `discover_tools`: the root prefix is the configured alias, or the mangled
canonical path when no alias is configured. -/
def discover_tools (fuel : Nat) (client : Obj) (classPath : String)
    (aliasOpt : Option String) (cfg : Config) : List Tool :=
  discover fuel client cfg (aliasOpt.getD (mangle classPath))

/-- The classified errors `execute_tool` can raise, as `main.py` distinguishes
them: `ValueError` (resolution failures), `ToolTimeoutError`, and any other
exception escaping the call. -/
inductive ExecError : Type where
  | valueError : String → ExecError
  | toolTimeout : String → ExecError
  | opFailed : String → ExecError
deriving DecidableEq

/-- The HTTP status `execute_tool_endpoint` maps each error class to. -/
def statusOf : ExecError → Nat
  | .valueError _ => 404
  | .toolTimeout _ => 408
  | .opFailed _ => 500

/-- `EXECUTION_TIMEOUT_SECONDS` from `core/executor.py`. -/
def EXECUTION_TIMEOUT_SECONDS : Nat := 10

/-- `SERIALIZATION_LIMIT` from `core/executor.py`. -/
def SERIALIZATION_LIMIT : Nat := 30

/-- The message of the wrapped `ValueError` raised for an alias missing from
(or falsy in) the alias map: the inner `No client found for alias '…'.` is
re-raised as `Invalid tool_name format or alias: … (…)`. -/
def aliasErrMsg (toolName aliasName : String) : String :=
  "Invalid tool_name format or alias: " ++ toolName ++
    " (No client found for alias '" ++ aliasName ++ "'.)"

/-- `Client for '…' not found.` -/
def clientErrMsg (cp : String) : String :=
  "Client for '" ++ cp ++ "' not found."

/-- `Nested object '…' not found in tool path '…'.` -/
def groupErrMsg (part toolName : String) : String :=
  "Nested object '" ++ part ++ "' not found in tool path '" ++ toolName ++ "'."

/-- `Method '…' not found on target object.` -/
def methodErrMsg (m : String) : String :=
  "Method '" ++ m ++ "' not found on target object."

/-- The group-segment walk of `execute_tool`: `current_object =
getattr(current_object, part, None); if not current_object: raise ValueError`.
An absent segment and a falsy present segment raise the same error. -/
def walkPath (toolName : String) : Mem → List String → Except ExecError Mem
  | cur, [] => .ok cur
  | cur, p :: rest =>
    match cur.toObj.attr p with
    | some m =>
      if m.truthy then walkPath toolName m rest
      else .error (.valueError (groupErrMsg p toolName))
    | none => .error (.valueError (groupErrMsg p toolName))

/-- The final member fetch of `execute_tool`: `method_to_call =
getattr(current_object, method_name, None); if not method_to_call: raise`.
Only truthiness is checked, not callability. -/
def fetchMethod (mname : String) (cur : Mem) : Except ExecError Mem :=
  match cur.toObj.attr mname with
  | some m =>
    if m.truthy then .ok m else .error (.valueError (methodErrMsg mname))
  | none => .error (.valueError (methodErrMsg mname))

/-- The resolution phase of `execute_tool`: split the name, resolve the alias
through the alias map (`if not class_path_str` treats an absent key and an
empty string alike), resolve the canonical path through the client registry
(again by truthiness), walk the group segments, and fetch the final member. -/
def resolveTool (toolName : String) (clients : List (String × Obj))
    (aliasMap : List (String × String)) : Except ExecError Mem :=
  let parsed := parseToolName toolName
  match alookup aliasMap parsed.1 with
  | none => .error (.valueError (aliasErrMsg toolName parsed.1))
  | some cp =>
    if cp = "" then .error (.valueError (aliasErrMsg toolName parsed.1))
    else
      match alookup clients cp with
      | none => .error (.valueError (clientErrMsg cp))
      | some root =>
        if root.truthy then
          match walkPath toolName (.group root) parsed.2.1 with
          | .error e => .error e
          | .ok cur => fetchMethod parsed.2.2 cur
        else .error (.valueError (clientErrMsg cp))

mutual
/-- `serialize_result`: a value with `to_dict` is replaced by that conversion
(not recursed into); lists and dictionaries are serialized recursively; any
other non-native, non-null value falls back to `str(...)`, and to the fixed
placeholder string when even that raises; native scalars and null are returned
unchanged. -/
def serialize : RValue → RValue
  | .vObj (some d) _ => d
  | .vObj none (some s) => .vStr s
  | .vObj none none => .vStr "Unserializable Object"
  | .vList xs => .vList (serializeList xs)
  | .vDict kvs => .vDict (serializeDict kvs)
  | .vIter _ r => .vStr r
  | v => v

/-- Element-wise serialization of a Python list. -/
def serializeList : List RValue → List RValue
  | [] => []
  | x :: xs => serialize x :: serializeList xs

/-- Value-wise serialization of a Python dictionary, preserving keys. -/
def serializeDict : List (String × RValue) → List (String × RValue)
  | [] => []
  | (k, v) :: kvs => (k, serialize v) :: serializeDict kvs
end

/-- The success envelope `{"result": …, "_mcp_metadata": {"truncated": …}}`
built by `_execute_and_serialize`, as the Python dictionary it returns. -/
def mcpEnvelope (data : RValue) (truncated : Bool) : RValue :=
  .vDict [("result", data), ("_mcp_metadata", .vDict [("truncated", .vBool truncated)])]

/-- `_execute_and_serialize`: run the operation; a result with `__iter__` that
is not a `list`, `dict` or `str` is materialized via
`islice(result, SERIALIZATION_LIMIT + 1)`, capped at the limit with the
`truncated` flag set when the extra element exists; everything else is
serialized directly.  An exception from the operation propagates (re-raised by
`execute_tool`'s `except Exception` handler). -/
def execAndSerialize : Outcome → Except ExecError RValue
  | .raises msg => .error (.opFailed msg)
  | .returns result =>
    match result with
    | .vIter elems _ =>
      if SERIALIZATION_LIMIT < ((elems.take (SERIALIZATION_LIMIT + 1)).length) then
        .ok (mcpEnvelope
          (serialize (.vList ((elems.take (SERIALIZATION_LIMIT + 1)).take SERIALIZATION_LIMIT)))
          true)
      else
        .ok (mcpEnvelope (serialize (.vList (elems.take (SERIALIZATION_LIMIT + 1)))) false)
    | _ => .ok (mcpEnvelope (serialize result) false)

/-- The message of the `TypeError` raised inside the worker when the resolved
member is not callable; it escapes through the generic `except Exception`
handler. -/
def notCallableMsg : String := "object is not callable"

/-- `execute_tool`: resolve, then invoke in the worker and serialize.  A
resolution failure raises before anything is submitted to the pool; a resolved
non-callable member raises a `TypeError` during the call, which is re-raised
as a generic execution failure.  (The wall-clock timeout of
`future.result(timeout=…)` has no counterpart in this pure model.) -/
def execute_tool (toolName : String) (clients : List (String × Obj))
    (aliasMap : List (String × String)) : Except ExecError RValue :=
  match resolveTool toolName clients aliasMap with
  | .error e => .error e
  | .ok (.method m) => execAndSerialize m.outcome
  | .ok _ => .error (.opFailed notCallableMsg)

/-- The keys of a successful execution envelope, in insertion order. -/
def envelopeKeys : Except ExecError RValue → List String
  | .ok (.vDict kvs) => kvs.map Prod.fst
  | _ => []

/-- Fueled well-formedness of an object graph for the naming round trip:
at every level reachable within the fuel, attribute names are distinct,
every attribute name is separator-free and does not end in an underscore,
and every sub-group is truthy. -/
def cleanObj : Nat → Obj → Bool
  | 0, _ => true
  | fuel + 1, o =>
    decide ((o.members.map Prod.fst).Nodup) &&
    o.members.all (fun p =>
      decide (cleanSeg p.1) &&
      (match p.2 with
       | .group o' => o'.truthy && cleanObj fuel o'
       | _ => true))

/-- The operation sitting at a group path below an object: walking the listed
group names through truthy members and fetching the named bound method at the
end. -/
inductive Reaches : Obj → List String → String → MethodSig → Prop where
  | here {o : Obj} {n : String} {m : MethodSig} :
      o.attr n = some (.method m) → Reaches o [] n m
  | step {o : Obj} {g : String} {mem : Mem} {gs : List String} {n : String}
      {m : MethodSig} :
      o.attr g = some mem → mem.truthy = true → Reaches mem.toObj gs n m →
      Reaches o (g :: gs) n m

/-! ### Concrete instances used by counterexamples and witnesses -/

/-- A method whose name contains the separator `__`, returning null. -/
def c1Sig : MethodSig := ⟨none, [], Outcome.returns RValue.vNone⟩

/-- A truthy root client exposing the single public method `get__data`. -/
def c1Obj : Obj := Obj.mk [("get__data", Mem.method c1Sig)] true

/-- A client registry holding the root under its canonical path. -/
def c1Clients : List (String × Obj) := [("pkg.Client", c1Obj)]

/-- An alias map sending the configured alias to the canonical path. -/
def c1Aliases : List (String × String) := [("a", "pkg.Client")]

/-- A method named `run`, used by round-trip witnesses. -/
def w1Sig : MethodSig := ⟨some "Runs the job.", [], Outcome.returns RValue.vNone⟩

/-- A truthy root client exposing the single public method `run`. -/
def w1Obj : Obj := Obj.mk [("run", Mem.method w1Sig)] true

/-- A client registry for the witness root. -/
def w1Clients : List (String × Obj) := [("pkg.Client", w1Obj)]

/-- An alias map for the witness root. -/
def w1Aliases : List (String × String) := [("a", "pkg.Client")]

/-- A method taking no parameters, used by guided-discovery instances. -/
def c3Sig : MethodSig := ⟨some "Lists items.", [], Outcome.returns RValue.vNone⟩

/-- A truthy object with one public method `m`. -/
def c3Obj : Obj := Obj.mk [("m", Mem.method c3Sig)] true

/-- A guided config (`operations_groups` key present, empty) with no
`include_methods` key. -/
def c3Cfg : Config := Config.mk (some []) none none

/-- A truthy object exposing the sibling public methods `list_items` and
`delete_item`. -/
def c2Obj : Obj :=
  Obj.mk [("delete_item", Mem.method c3Sig), ("list_items", Mem.method c3Sig)] true

/-- A guided config whose `include_methods` list is exactly `["list_items"]`. -/
def c2Cfg : Config := Config.mk (some []) (some (some ["list_items"])) none

/-- A nested sub-object exposing the public method `delete_all`. -/
def c2AdminObj : Obj := Obj.mk [("delete_all", Mem.method c3Sig)] true

/-- A truthy root exposing the nested group `admin` next to the sibling public
methods `delete_item` and `list_items`. -/
def c2AutoObj : Obj :=
  Obj.mk [("admin", Mem.group c2AdminObj),
          ("delete_item", Mem.method c3Sig),
          ("list_items", Mem.method c3Sig)] true

/-- A config giving only `include_methods: ["list_items"]` and no
`operations_groups` key: the code routes it through the auto-discovery path. -/
def c2AutoCfg : Config := Config.mk none (some (some ["list_items"])) none



/-- A truthy root whose member `op` is a truthy non-callable attribute. -/
def c6Obj : Obj := Obj.mk [("op", Mem.plain true)] true

/-- A client registry for the non-callable counterexample. -/
def c6Clients : List (String × Obj) := [("pkg.Client", c6Obj)]

/-- An alias map for the non-callable counterexample. -/
def c6Aliases : List (String × String) := [("a", "pkg.Client")]


/-! ### Helper lemmas -/

theorem splitSep_ne_nil (cs : List Char) : splitSep cs ≠ [] := by
  match cs with
  | [] => simp [splitSep]
  | [c] => simp [splitSep]
  | c :: d :: rest =>
    simp only [splitSep]
    split
    · simp
    · split <;> simp

theorem splitSep_append_sep (a : List Char) :
    splitSep a = [a] → a.getLast? ≠ some '_' →
    ∀ b, splitSep (a ++ '_' :: '_' :: b) = a :: splitSep b := by
  induction a with
  | nil =>
    intro _ _ b
    simp [splitSep]
  | cons c a' ih =>
    intro hs hl b
    match a' with
    | [] =>
      have hc : c ≠ '_' := by simpa using hl
      have h2 : splitSep ('_' :: '_' :: b) = [] :: splitSep b := by simp [splitSep]
      simp [splitSep, hc, h2]
    | c' :: a'' =>
      by_cases hcd : c = '_' ∧ c' = '_'
      · rw [show splitSep (c :: c' :: a'') = [] :: splitSep a'' by simp [splitSep, hcd]] at hs
        simp at hs
      · have hne : splitSep (c' :: a'') ≠ [] := splitSep_ne_nil _
        obtain ⟨s, ss, heq⟩ : ∃ s ss, splitSep (c' :: a'') = s :: ss := by
          cases h : splitSep (c' :: a'') with
          | nil => exact absurd h hne
          | cons s ss => exact ⟨s, ss, rfl⟩
        rw [show splitSep (c :: c' :: a'') = (c :: s) :: ss by
          simp only [splitSep, if_neg hcd, heq]] at hs
        simp only [List.cons.injEq] at hs
        obtain ⟨⟨_, hs1⟩, hs2⟩ := hs
        have hhd : splitSep (c' :: a'') = [c' :: a''] := by rw [heq, hs1, hs2]
        have hlast : (c' :: a'').getLast? ≠ some '_' := by
          rwa [List.getLast?_cons_cons] at hl
        have ihh := ih hhd hlast b
        simp only [List.cons_append] at ihh ⊢
        simp only [splitSep, if_neg hcd]
        rw [ihh]

theorem splitSep_joinSegs : ∀ segs : List (List Char), segs ≠ [] →
    (∀ s ∈ segs, splitSep s = [s] ∧ s.getLast? ≠ some '_') →
    splitSep (joinSegs segs) = segs := by
  intro segs
  induction segs with
  | nil => intro h; exact absurd rfl h
  | cons s rest ih =>
    intro _ hall
    match rest with
    | [] =>
      exact (hall s (by simp)).1
    | s' :: rest' =>
      have hj : joinSegs (s :: s' :: rest') = s ++ '_' :: '_' :: joinSegs (s' :: rest') := by
        simp [joinSegs]
      rw [hj]
      have hclean := hall s (by simp)
      rw [splitSep_append_sep s hclean.1 hclean.2 _]
      rw [ih (by simp) (fun t htm => hall t (by simp [htm]))]


theorem string_data_append (s t : String) : (s ++ t).data = s.data ++ t.data := rfl

theorem string_mk_data (s : String) : String.mk s.data = s := rfl

theorem string_append_cancel_left {a b c : String} (h : a ++ b = a ++ c) : b = c := by
  have hd := congrArg String.data h
  rw [string_data_append, string_data_append] at hd
  have h2 := List.append_cancel_left hd
  calc b = String.mk b.data := (string_mk_data b).symm
    _ = String.mk c.data := by rw [h2]
    _ = c := string_mk_data c

theorem string_data_eq {a b : String} (h : a.data = b.data) : a = b := by
  calc a = String.mk a.data := (string_mk_data a).symm
    _ = String.mk b.data := by rw [h]
    _ = b := string_mk_data b

theorem string_append_assoc (a b c : String) : (a ++ b) ++ c = a ++ (b ++ c) :=
  string_data_eq (by
    simp only [string_data_append]
    rw [List.append_assoc])

theorem splitSep_ge_two : ∀ a b : List Char, 2 ≤ (splitSep (a ++ '_' :: '_' :: b)).length := by
  intro a
  induction a with
  | nil =>
    intro b
    have h1 : splitSep ('_' :: '_' :: b) = [] :: splitSep b := by simp [splitSep]
    rw [List.nil_append, h1, List.length_cons]
    have := List.length_pos.2 (splitSep_ne_nil b)
    omega
  | cons c a' ih =>
    intro b
    match a' with
    | [] =>
      by_cases hc : c = '_'
      · rw [hc]
        have h1 : splitSep ('_' :: [] ++ '_' :: '_' :: b) = [] :: splitSep ('_' :: b) := by
          simp [splitSep]
        rw [h1, List.length_cons]
        have := List.length_pos.2 (splitSep_ne_nil ('_' :: b))
        omega
      · have h2 : splitSep ('_' :: '_' :: b) = [] :: splitSep b := by simp [splitSep]
        have h1 : splitSep (c :: [] ++ '_' :: '_' :: b) = [c] :: splitSep b := by
          simp [splitSep, hc, h2]
        rw [h1, List.length_cons]
        have := List.length_pos.2 (splitSep_ne_nil b)
        omega
    | c' :: a'' =>
      by_cases hcd : c = '_' ∧ c' = '_'
      · have h1 : splitSep (c :: (c' :: a'') ++ '_' :: '_' :: b) =
            [] :: splitSep (a'' ++ '_' :: '_' :: b) := by
          simp only [List.cons_append, splitSep, if_pos hcd]
          rfl
        rw [h1, List.length_cons]
        have := List.length_pos.2 (splitSep_ne_nil (a'' ++ '_' :: '_' :: b))
        omega
      · have hne : splitSep ((c' :: a'') ++ '_' :: '_' :: b) ≠ [] := splitSep_ne_nil _
        obtain ⟨s, ss, heq⟩ : ∃ s ss, splitSep ((c' :: a'') ++ '_' :: '_' :: b) = s :: ss := by
          cases h : splitSep ((c' :: a'') ++ '_' :: '_' :: b) with
          | nil => exact absurd h hne
          | cons s ss => exact ⟨s, ss, rfl⟩
        have h1 : splitSep (c :: (c' :: a'') ++ '_' :: '_' :: b) = (c :: s) :: ss := by
          simp only [List.cons_append] at heq ⊢
          simp only [splitSep, if_neg hcd, heq]
        have h2 := ih b
        rw [heq, List.length_cons] at h2
        rw [h1, List.length_cons]
        omega

theorem map_mk_data (l : List String) : l.map (fun s => String.mk s.data) = l := by
  induction l with
  | nil => rfl
  | cons s rest ih => simp [ih, string_mk_data]

theorem extendName_data (segs : List String) : ∀ a : String,
    (extendName a segs).data = joinSegs (a.data :: segs.map String.data) := by
  induction segs with
  | nil => intro a; simp [extendName, joinSegs]
  | cons n ns ih =>
    intro a
    have h1 : extendName a (n :: ns) = extendName (a ++ "__" ++ n) ns := rfl
    rw [h1, ih]
    have h2 : (a ++ "__" ++ n).data = a.data ++ '_' :: '_' :: n.data := by
      rw [string_data_append, string_data_append, List.append_assoc]
      rfl
    rw [h2]
    match ns with
    | [] => simp [joinSegs]
    | m :: ms => simp [joinSegs]

theorem extendName_append_pre : ∀ (names : List String) (a b : String),
    extendName (a ++ b) names = a ++ extendName b names := by
  intro names
  induction names with
  | nil => intro a b; rfl
  | cons x xs ih =>
    intro a b
    show extendName ((a ++ b) ++ "__" ++ x) xs = a ++ extendName b (x :: xs)
    have h1 : ((a ++ b) ++ "__") ++ x = a ++ ((b ++ "__") ++ x) := by
      rw [string_append_assoc a b "__", string_append_assoc a (b ++ "__") x]
    calc extendName ((a ++ b) ++ "__" ++ x) xs
        = extendName (a ++ ((b ++ "__") ++ x)) xs := by rw [h1]
      _ = a ++ extendName ((b ++ "__") ++ x) xs := ih a _
      _ = a ++ extendName b (x :: xs) := rfl

theorem splitDunder_extendName (a : String) (segs : List String)
    (ha : cleanSeg a) (hsegs : ∀ s ∈ segs, cleanSeg s) :
    splitDunder (extendName a segs) = a :: segs := by
  have hall : ∀ s ∈ a.data :: segs.map String.data,
      splitSep s = [s] ∧ s.getLast? ≠ some '_' := by
    intro s hsm
    rcases List.mem_cons.1 hsm with h | h
    · exact h ▸ ha
    · obtain ⟨t, htm, rfl⟩ := List.mem_map.1 h
      exact hsegs t htm
  unfold splitDunder
  rw [extendName_data]
  rw [splitSep_joinSegs (a.data :: segs.map String.data) (by simp) hall]
  simp only [List.map_cons, List.map_map]
  rw [show (String.mk ∘ String.data) = (fun s => String.mk s.data) from rfl]
  rw [map_mk_data]

theorem parseToolName_extendName (a : String) (gnames : List String) (mname : String)
    (ha : cleanSeg a) (hg : ∀ s ∈ gnames, cleanSeg s) (hm : cleanSeg mname) :
    parseToolName (extendName a (gnames ++ [mname])) = (a, gnames, mname) := by
  unfold parseToolName
  rw [splitDunder_extendName a (gnames ++ [mname]) ha (by
    intro s hs
    rcases List.mem_append.1 hs with h | h
    · exact hg s h
    · simpa using (List.mem_singleton.1 h) ▸ hm)]
  simp only [List.headD_cons, List.drop_succ_cons, List.drop_zero]
  rw [List.dropLast_concat]
  have hlast : (a :: (gnames ++ [mname])).getLastD "" = mname := by
    rw [List.getLastD_eq_getLast?]
    rw [show a :: (gnames ++ [mname]) = (a :: gnames) ++ [mname] from rfl]
    rw [List.getLast?_concat]
    rfl
  rw [hlast]


theorem alookup_mem {α : Type} {l : List (String × α)} {k : String} {v : α}
    (h : alookup l k = some v) : (k, v) ∈ l := by
  induction l with
  | nil => simp [alookup] at h
  | cons p ps ih =>
    by_cases hp : p.1 = k
    · rw [show alookup (p :: ps) k = some p.2 by simp [alookup, hp]] at h
      obtain ⟨p1, p2⟩ := p
      simp at hp h
      rw [← hp, ← h]
      exact List.mem_cons_self _ _
    · rw [show alookup (p :: ps) k = alookup ps k by simp [alookup, hp]] at h
      exact List.mem_cons_of_mem p (ih h)

theorem mem_alookup {α : Type} {l : List (String × α)} {k : String} {v : α}
    (hnd : (l.map Prod.fst).Nodup) (h : (k, v) ∈ l) : alookup l k = some v := by
  induction l with
  | nil => simp at h
  | cons p ps ih =>
    simp only [List.map_cons, List.nodup_cons] at hnd
    rcases List.mem_cons.1 h with heq | hm
    · rw [← heq]
      simp [alookup]
    · have hne : p.1 ≠ k := by
        intro hk
        exact hnd.1 (hk ▸ (List.mem_map.2 ⟨(k, v), hm, rfl⟩))
      rw [show alookup (p :: ps) k = alookup ps k by simp [alookup, hne]]
      exact ih hnd.2 hm

theorem walkPath_fetch_of_reaches {o : Obj} {gnames : List String} {mname : String}
    {m : MethodSig} (hr : Reaches o gnames mname m) :
    ∀ (tn : String) (cur : Mem), cur.toObj = o →
    (match walkPath tn cur gnames with
     | .error e => Except.error e
     | .ok c => fetchMethod mname c) = Except.ok (Mem.method m) := by
  induction hr with
  | here hattr =>
    intro tn cur hcur
    simp only [walkPath]
    simp only [fetchMethod, hcur, hattr]
    rfl
  | step hattr htr _ ih =>
    intro tn cur hcur
    simp only [walkPath, hcur, hattr, htr, if_true]
    exact ih tn _ rfl

theorem resolve_of_reaches (aliasName cp : String) (clients : List (String × Obj))
    (aliasMap : List (String × String)) (root : Obj) (gnames : List String)
    (mname : String) (m : MethodSig)
    (ha : cleanSeg aliasName) (hg : ∀ s ∈ gnames, cleanSeg s) (hm : cleanSeg mname)
    (hlook : alookup aliasMap aliasName = some cp) (hcp : cp ≠ "")
    (hcl : alookup clients cp = some root) (ht : root.truthy = true)
    (hr : Reaches root gnames mname m) :
    resolveTool (extendName aliasName (gnames ++ [mname])) clients aliasMap =
      Except.ok (Mem.method m) := by
  unfold resolveTool
  rw [parseToolName_extendName aliasName gnames mname ha hg hm]
  simp only [hlook, hcp, hcl, ht, if_true, if_neg hcp]
  exact walkPath_fetch_of_reaches hr _ (Mem.group root) rfl


theorem cleanObj_nil (fuel : Nat) (b : Bool) : cleanObj fuel (Obj.mk [] b) = true := by
  cases fuel <;> simp [cleanObj, Obj.members]

theorem cleanObj_succ {fuel : Nat} {o : Obj} (h : cleanObj (fuel + 1) o = true) :
    (o.members.map Prod.fst).Nodup ∧
    ∀ p ∈ o.members, cleanSeg p.1 ∧
      (∀ o', p.2 = Mem.group o' → o'.truthy = true ∧ cleanObj fuel o' = true) := by
  unfold cleanObj at h
  rw [Bool.and_eq_true] at h
  obtain ⟨h1, h2⟩ := h
  refine ⟨of_decide_eq_true h1, ?_⟩
  intro p hp
  have hall := (List.all_eq_true.1 h2) p hp
  rw [Bool.and_eq_true] at hall
  refine ⟨of_decide_eq_true hall.1, ?_⟩
  intro o' ho'
  have h3 := hall.2
  rw [ho'] at h3
  rw [Bool.and_eq_true] at h3
  exact h3

theorem mem_methodTools {o : Obj} {inc : Option (List String)} {pre : String} {t : Tool}
    (ht : t ∈ methodTools o inc pre) :
    ∃ n m, (n, Mem.method m) ∈ o.members ∧ startsUnderscore n = false ∧
      matchesInclude inc n = true ∧ t = genSchemaTool (pre ++ "__" ++ n) m := by
  unfold methodTools at ht
  obtain ⟨p, hp, hfp⟩ := List.mem_filterMap.1 ht
  obtain ⟨n, mem⟩ := p
  cases mem with
  | method m =>
    simp only at hfp
    by_cases hc : (!startsUnderscore n && matchesInclude inc n) = true
    · rw [if_pos hc] at hfp
      rw [Bool.and_eq_true, Bool.not_eq_true'] at hc
      exact ⟨n, m, hp, hc.1, hc.2, (Option.some.injEq _ _ ▸ hfp).symm⟩
    · rw [if_neg hc] at hfp
      exact absurd hfp (by simp)
  | group o' => simp at hfp
  | plain b => simp at hfp

theorem sound_method_case {o : Obj} {inc : Option (List String)} {pre : String} {t : Tool}
    (hnd : (o.members.map Prod.fst).Nodup)
    (hmem : ∀ p ∈ o.members, cleanSeg p.1)
    (ht : t ∈ methodTools o inc pre) :
    ∃ gnames mname m,
      t = genSchemaTool t.name m ∧
      t.name = extendName pre (gnames ++ [mname]) ∧
      (∀ s ∈ gnames, cleanSeg s) ∧ cleanSeg mname ∧
      Reaches o gnames mname m := by
  obtain ⟨n, m, hin, _, _, heq⟩ := mem_methodTools ht
  refine ⟨[], n, m, ?_, ?_, by simp, hmem _ hin, Reaches.here (mem_alookup hnd hin)⟩
  · rw [heq]; rfl
  · rw [heq]; rfl


theorem discover_sound : ∀ (fuel : Nat) (o : Obj) (cfg : Config) (pre : String),
    cleanObj fuel o = true →
    ∀ t ∈ discover fuel o cfg pre,
      ∃ gnames mname m,
        t = genSchemaTool t.name m ∧
        t.name = extendName pre (gnames ++ [mname]) ∧
        (∀ s ∈ gnames, cleanSeg s) ∧ cleanSeg mname ∧
        Reaches o gnames mname m := by
  intro fuel
  induction fuel with
  | zero =>
    intro o cfg pre _ t ht
    simp [discover] at ht
  | succ fuel ih =>
    intro o cfg pre hco t ht
    obtain ⟨hnd, hmem⟩ := cleanObj_succ hco
    have hmem1 : ∀ p ∈ o.members, cleanSeg p.1 := fun p hp => (hmem p hp).1
    obtain ⟨gOpt, incOpt, nmOpt⟩ := cfg
    cases gOpt with
    | some gs =>
      simp only [discover, Config.opGroups, Config.includeMethods] at ht
      rcases List.mem_append.1 ht with hta | htg
      · cases incOpt with
        | none => simp at hta
        | some inc => exact sound_method_case hnd hmem1 hta
      · obtain ⟨gc, hgc, htf⟩ := List.mem_flatMap.1 htg
        cases hname : gc.cfgName with
        | none => rw [hname] at htf; simp at htf
        | some g =>
          rw [hname] at htf
          simp only at htf
          by_cases hg : g = ""
          · rw [if_pos hg] at htf; simp at htf
          · rw [if_neg hg] at htf
            cases hattr : o.attr g with
            | none => rw [hattr] at htf; simp at htf
            | some mem =>
              rw [hattr] at htf
              simp only at htf
              by_cases htr : mem.truthy = true
              · rw [if_pos htr] at htf
                have hgin : (g, mem) ∈ o.members := alookup_mem hattr
                have hclean : cleanObj fuel mem.toObj = true := by
                  cases mem with
                  | group o' =>
                    exact ((hmem _ hgin).2 o' rfl).2
                  | method m => exact cleanObj_nil fuel true
                  | plain b => exact cleanObj_nil fuel b
                obtain ⟨gnames', mname, m, hteq, htname, hcg, hcm, hre⟩ :=
                  ih mem.toObj gc (pre ++ "__" ++ g) hclean t htf
                refine ⟨g :: gnames', mname, m, hteq, htname, ?_, hcm,
                  Reaches.step hattr htr hre⟩
                intro s hs
                rcases List.mem_cons.1 hs with h | h
                · exact h ▸ (hmem _ hgin).1
                · exact hcg s h
              · rw [if_neg htr] at htf; simp at htf
    | none =>
      simp only [discover, Config.opGroups, Config.includeMethods] at ht
      rcases List.mem_append.1 ht with hta | htg
      · exact sound_method_case hnd hmem1 hta
      · obtain ⟨p, hp, htf⟩ := List.mem_flatMap.1 htg
        obtain ⟨n, mem⟩ := p
        by_cases hc : (!startsUnderscore n && mem.isGroupMember) = true
        · rw [if_pos hc] at htf
          cases hmg : mem with
          | method m => rw [hmg] at hc; simp [Mem.isGroupMember] at hc
          | plain b => rw [hmg] at hc; simp [Mem.isGroupMember] at hc
          | group o' =>
            have hgin : (n, mem) ∈ o.members := hp
            have htr : mem.truthy = true := by
              rw [hmg, Mem.truthy]
              exact ((hmem _ hgin).2 o' hmg).1
            have hclean : cleanObj fuel mem.toObj = true := by
              rw [hmg, Mem.toObj]
              exact ((hmem _ hgin).2 o' hmg).2
            obtain ⟨gnames', mname, m, hteq, htname, hcg, hcm, hre⟩ :=
              ih mem.toObj (Config.mk none none none) (pre ++ "__" ++ n) hclean t htf
            refine ⟨n :: gnames', mname, m, hteq, htname, ?_, hcm,
              Reaches.step (mem_alookup hnd hgin) htr hre⟩
            intro s hs
            rcases List.mem_cons.1 hs with hcase | hcase
            · exact hcase ▸ (hmem _ hgin).1
            · exact hcg s hcase
        · rw [if_neg hc] at htf; simp at htf


/-- C1, counterexample: the introspector keeps the public method `get__data`
of a root client (alias `a`, canonical path present in both maps), recording
the tool name `a__get__data`; but the dispatcher's resolution algorithm splits
that name into alias `a`, group path `[get]` and operation `data`, fails on the
missing group segment `get`, and so does not resolve to the discovered
operation. -/
theorem c1_counterexample :
    discover 1 c1Obj (Config.mk none none none) "a" =
      [⟨"a__get__data", NO_DESCRIPTION, [], []⟩] ∧
    resolveTool "a__get__data" c1Clients c1Aliases =
      Except.error (ExecError.valueError (groupErrMsg "get" "a__get__data")) ∧
    ∀ m : MethodSig, resolveTool "a__get__data" c1Clients c1Aliases ≠
      Except.ok (Mem.method m) := by
  refine ⟨rfl, rfl, ?_⟩
  intro m h
  rw [show resolveTool "a__get__data" c1Clients c1Aliases =
      Except.error (ExecError.valueError (groupErrMsg "get" "a__get__data")) from rfl] at h
  exact Except.noConfusion h

/-- C1, amended: round-trip of naming holds on separator-clean object graphs.
For a root client handle registered under a canonical path, with an alias
resolving to that path, provided the alias and every attribute name in the
graph contain no occurrence of the `__` separator and do not end in `_`, and
every sub-object on a path is truthy, every tool kept by the introspector has
a name that the dispatcher's resolution algorithm resolves back to exactly the
bound method the schema was generated from. -/
theorem c1_roundtrip (fuel : Nat) (root : Obj) (cfg : Config) (aliasName cp : String)
    (clients : List (String × Obj)) (aliasMap : List (String × String))
    (hclean : cleanObj fuel root = true) (ha : cleanSeg aliasName)
    (hlook : alookup aliasMap aliasName = some cp) (hcp : cp ≠ "")
    (hcl : alookup clients cp = some root) (ht : root.truthy = true) :
    ∀ t ∈ discover fuel root cfg aliasName,
      ∃ m : MethodSig, resolveTool t.name clients aliasMap = Except.ok (Mem.method m) ∧
        t = genSchemaTool t.name m := by
  intro t htm
  obtain ⟨gnames, mname, m, hteq, htname, hcg, hcm, hre⟩ :=
    discover_sound fuel root cfg aliasName hclean t htm
  refine ⟨m, ?_, hteq⟩
  rw [htname]
  exact resolve_of_reaches aliasName cp clients aliasMap root gnames mname m
    ha hcg hcm hlook hcp hcl ht hre

/-- C1, witness: the amended round-trip applied to a concrete clean root with
one public method `run` under alias `a`. -/
theorem c1_roundtrip_witness :
    cleanObj 1 w1Obj = true ∧ cleanSeg "a" ∧
    alookup w1Aliases "a" = some "pkg.Client" ∧ "pkg.Client" ≠ "" ∧
    alookup w1Clients "pkg.Client" = some w1Obj ∧ w1Obj.truthy = true ∧
    (∀ t ∈ discover 1 w1Obj (Config.mk none none none) "a",
      ∃ m : MethodSig, resolveTool t.name w1Clients w1Aliases = Except.ok (Mem.method m) ∧
        t = genSchemaTool t.name m) :=
  ⟨by decide, by decide, rfl, by decide, rfl, rfl,
    c1_roundtrip 1 w1Obj (Config.mk none none none) "a" "pkg.Client"
      w1Clients w1Aliases (by decide) (by decide) rfl (by decide) rfl rfl⟩

theorem mem_discover_guided_any {fuel : Nat} {o : Obj} {gs : List Config}
    {incKey : Option (Option (List String))} {nmOpt : Option String} {pre : String}
    {t : Tool}
    (ht : t ∈ discover (fuel + 1) o (Config.mk (some gs) incKey nmOpt) pre) :
    (∃ inc n m, incKey = some inc ∧ (n, Mem.method m) ∈ o.members ∧
        matchesInclude inc n = true ∧ startsUnderscore n = false ∧
        t = genSchemaTool (pre ++ "__" ++ n) m) ∨
    (∃ gc ∈ gs, ∃ g mem, gc.cfgName = some g ∧ g ≠ "" ∧ o.attr g = some mem ∧
        mem.truthy = true ∧ t ∈ discover fuel mem.toObj gc (pre ++ "__" ++ g)) := by
  simp only [discover, Config.opGroups, Config.includeMethods] at ht
  rcases List.mem_append.1 ht with hta | htg
  · cases incKey with
    | none => simp at hta
    | some inc =>
      obtain ⟨n, m, hin, hsu, hmi, heq⟩ := mem_methodTools hta
      exact Or.inl ⟨inc, n, m, rfl, hin, hmi, hsu, heq⟩
  · obtain ⟨gc, hgc, htf⟩ := List.mem_flatMap.1 htg
    right
    cases hname : gc.cfgName with
    | none => rw [hname] at htf; simp at htf
    | some g =>
      rw [hname] at htf
      simp only at htf
      by_cases hg : g = ""
      · rw [if_pos hg] at htf; simp at htf
      · rw [if_neg hg] at htf
        cases hattr : o.attr g with
        | none => rw [hattr] at htf; simp at htf
        | some mem =>
          rw [hattr] at htf
          simp only at htf
          by_cases htr : mem.truthy = true
          · rw [if_pos htr] at htf
            exact ⟨gc, hgc, g, mem, hname, hg, hattr, htr, htf⟩
          · rw [if_neg htr] at htf; simp at htf

theorem mem_discover_auto {fuel : Nat} {o : Obj} {incKey : Option (Option (List String))}
    {nmOpt : Option String} {pre : String} {t : Tool}
    (ht : t ∈ discover (fuel + 1) o (Config.mk none incKey nmOpt) pre) :
    (∃ n m, (n, Mem.method m) ∈ o.members ∧ matchesInclude incKey.join n = true ∧
        startsUnderscore n = false ∧ t = genSchemaTool (pre ++ "__" ++ n) m) ∨
    (∃ n o', (n, Mem.group o') ∈ o.members ∧ startsUnderscore n = false ∧
        t ∈ discover fuel o' (Config.mk none none none) (pre ++ "__" ++ n)) := by
  simp only [discover, Config.opGroups, Config.includeMethods] at ht
  rcases List.mem_append.1 ht with hta | htg
  · obtain ⟨n, m, hin, hsu, hmi, heq⟩ := mem_methodTools hta
    exact Or.inl ⟨n, m, hin, hmi, hsu, heq⟩
  · obtain ⟨p, hp, htf⟩ := List.mem_flatMap.1 htg
    obtain ⟨n, mem⟩ := p
    by_cases hc : (!startsUnderscore n && mem.isGroupMember) = true
    · rw [if_pos hc] at htf
      rw [Bool.and_eq_true, Bool.not_eq_true'] at hc
      cases hmg : mem with
      | method m => rw [hmg] at hc; simp [Mem.isGroupMember] at hc
      | plain b => rw [hmg] at hc; simp [Mem.isGroupMember] at hc
      | group o' =>
        right
        refine ⟨n, o', hmg ▸ hp, hc.1, ?_⟩
        rw [hmg] at htf
        exact htf
    · rw [if_neg hc] at htf; simp at htf

theorem discover_name_shape : ∀ (fuel : Nat) (o : Obj) (cfg : Config) (pre : String),
    ∀ t ∈ discover fuel o cfg pre,
      ∃ names : List String, names ≠ [] ∧ t.name = extendName pre names := by
  intro fuel
  induction fuel with
  | zero => intro o cfg pre t ht; simp [discover] at ht
  | succ fuel ih =>
    intro o cfg pre t ht
    obtain ⟨gOpt, incOpt, nmOpt⟩ := cfg
    cases gOpt with
    | some gs =>
      rcases mem_discover_guided_any ht with
        ⟨inc, n, m, _, _, _, _, heq⟩ | ⟨gc, _, g, mem, _, _, _, _, htf⟩
      · exact ⟨[n], by simp, by rw [heq]; rfl⟩
      · obtain ⟨names, hne, hshape⟩ := ih mem.toObj gc (pre ++ "__" ++ g) t htf
        exact ⟨g :: names, by simp, by rw [hshape]; rfl⟩
    | none =>
      rcases mem_discover_auto ht with
        ⟨n, m, _, _, _, heq⟩ | ⟨n, o', _, _, htf⟩
      · exact ⟨[n], by simp, by rw [heq]; rfl⟩
      · obtain ⟨names, hne, hshape⟩ := ih o' (Config.mk none none none) (pre ++ "__" ++ n) t htf
        exact ⟨n :: names, by simp, by rw [hshape]; rfl⟩

/-- C2, counterexample: the claim covers every config that gives an explicit
list of allowed operation names and/or nested group names, but a config giving
only `include_methods: ["list_items"]` (no `operations_groups` key) is routed
through the auto-discovery path, whose recursion descends into the nested
member `admin` under an empty config and discovers the unlisted operation
`delete_all` as `a__admin__delete_all` — neither `admin` nor `delete_all` is
explicitly listed anywhere in the config. -/
theorem c2_counterexample :
    c2AutoCfg.opGroups = none ∧
    c2AutoCfg.includeMethods = some (some ["list_items"]) ∧
    discover 2 c2AutoObj c2AutoCfg "a" =
      [⟨"a__list_items", "Lists items.", [], []⟩,
       ⟨"a__admin__delete_all", "Lists items.", [], []⟩] ∧
    (⟨"a__admin__delete_all", "Lists items.", [], []⟩ : Tool) ∈
      discover 2 c2AutoObj c2AutoCfg "a" ∧
    "admin" ∉ ["list_items"] ∧ "delete_all" ∉ ["list_items"] :=
  ⟨rfl, rfl, rfl, by decide, by decide, by decide⟩

/-- C2, amended: restrictiveness holds per guided node, not for every config
with an explicit list.  First part: with the `operations_groups` key present
and an explicit `include_methods` list, every discovered tool either is a
public method of the current node explicitly named in the list, or comes from
recursion into an explicitly declared sub-group.  Second part: a guided config
whose `include_methods` list is `["list_items"]` and which declares no
sub-groups never yields a schema named after the sibling operation
`delete_item`.  Third part: even on the auto path a config whose
`include_methods` list is `["list_items"]` never yields the sibling schema
`pre__delete_item` — the node filter excludes it and every recursion-produced
name contains a further separator; the auto path does, however, discover
unlisted nested members (see the counterexample). -/
theorem c2_guided_restrictive :
    (∀ (fuel : Nat) (o : Obj) (gs : List Config) (incL : List String)
        (nmOpt : Option String) (pre : String) (t : Tool),
      t ∈ discover (fuel + 1) o (Config.mk (some gs) (some (some incL)) nmOpt) pre →
      (∃ n m, (n, Mem.method m) ∈ o.members ∧ n ∈ incL ∧
          startsUnderscore n = false ∧ t = genSchemaTool (pre ++ "__" ++ n) m) ∨
      (∃ gc ∈ gs, ∃ g mem, gc.cfgName = some g ∧ g ≠ "" ∧ o.attr g = some mem ∧
          mem.truthy = true ∧ t ∈ discover fuel mem.toObj gc (pre ++ "__" ++ g))) ∧
    (∀ (fuel : Nat) (o : Obj) (nmOpt : Option String) (pre : String) (t : Tool),
      t ∈ discover (fuel + 1) o (Config.mk (some []) (some (some ["list_items"])) nmOpt) pre →
      t.name ≠ pre ++ "__" ++ "delete_item") ∧
    (∀ (fuel : Nat) (o : Obj) (nmOpt : Option String) (pre : String) (t : Tool),
      t ∈ discover (fuel + 1) o (Config.mk none (some (some ["list_items"])) nmOpt) pre →
      t.name ≠ pre ++ "__" ++ "delete_item") := by
  refine ⟨?_, ?_, ?_⟩
  · intro fuel o gs incL nmOpt pre t ht
    rcases mem_discover_guided_any ht with ⟨inc, n, m, hik, hin, hmi, hsu, heq⟩ | hgrp
    · left
      have hinc : some incL = inc := Option.some.inj hik
      rw [← hinc] at hmi
      refine ⟨n, m, hin, ?_, hsu, heq⟩
      rw [show matchesInclude (some incL) n = incL.contains n from rfl] at hmi
      simpa using hmi
    · exact Or.inr hgrp
  · intro fuel o nmOpt pre t ht hne
    rcases mem_discover_guided_any ht with ⟨inc, n, m, hik, hin, hmi, hsu, heq⟩ | ⟨gc, hgc, _⟩
    · have hinc : some ["list_items"] = inc := Option.some.inj hik
      rw [← hinc] at hmi
      have hname : t.name = pre ++ "__" ++ n := by rw [heq]; rfl
      rw [hname] at hne
      have hn : n = "delete_item" := string_append_cancel_left hne
      rw [hn] at hmi
      exact absurd hmi (by decide)
    · simp at hgc
  · intro fuel o nmOpt pre t ht hne
    rcases mem_discover_auto ht with ⟨n, m, hin, hmi, hsu, heq⟩ | ⟨n, o', hin, hsu, htf⟩
    · have hname : t.name = pre ++ "__" ++ n := by rw [heq]; rfl
      rw [hname] at hne
      have hn : n = "delete_item" := string_append_cancel_left hne
      rw [hn] at hmi
      exact absurd hmi (by decide)
    · obtain ⟨names, hnn, hshape⟩ :=
        discover_name_shape fuel o' (Config.mk none none none) (pre ++ "__" ++ n) t htf
      obtain ⟨x, xs, rfl⟩ : ∃ x xs, names = x :: xs := by
        cases names with
        | nil => exact absurd rfl hnn
        | cons x xs => exact ⟨x, xs, rfl⟩
      rw [hshape] at hne
      rw [show pre ++ "__" ++ n = (pre ++ "__") ++ n from rfl] at hne
      rw [extendName_append_pre (x :: xs) (pre ++ "__") n] at hne
      have hcore : extendName n (x :: xs) = "delete_item" := string_append_cancel_left hne
      have hsplit2 : extendName n (x :: xs) = (n ++ "__") ++ extendName x xs :=
        extendName_append_pre xs (n ++ "__") x
      rw [hsplit2] at hcore
      have hdata := congrArg String.data hcore
      rw [string_data_append] at hdata
      have h2 : (n ++ "__").data = n.data ++ ['_', '_'] := by
        rw [string_data_append]
      rw [h2, List.append_assoc] at hdata
      have hge : 2 ≤ (splitSep ("delete_item".data)).length := by
        rw [← hdata]
        exact splitSep_ge_two n.data (extendName x xs).data
      have hone : (splitSep ("delete_item".data)).length = 1 := by decide
      omega

/-- C2, witness: discovery of the concrete sibling object under the concrete
guided config keeps `list_items`, the first part classifies that tool as an
explicitly included method, and the second and third parts applied at concrete
instances show the `delete_item` name never appears on either path. -/
theorem c2_witness :
    (genSchemaTool ("a" ++ "__" ++ "list_items") c3Sig ∈ discover 1 c2Obj c2Cfg "a") ∧
    ((∃ n m, (n, Mem.method m) ∈ c2Obj.members ∧ n ∈ ["list_items"] ∧
        startsUnderscore n = false ∧
        genSchemaTool ("a" ++ "__" ++ "list_items") c3Sig = genSchemaTool ("a" ++ "__" ++ n) m) ∨
      (∃ gc ∈ ([] : List Config), ∃ g mem, gc.cfgName = some g ∧ g ≠ "" ∧
        c2Obj.attr g = some mem ∧ mem.truthy = true ∧
        genSchemaTool ("a" ++ "__" ++ "list_items") c3Sig ∈
          discover 0 mem.toObj gc ("a" ++ "__" ++ g))) ∧
    ((genSchemaTool ("a" ++ "__" ++ "list_items") c3Sig).name ≠
      "a" ++ "__" ++ "delete_item") ∧
    ((⟨"a__admin__delete_all", "Lists items.", [], []⟩ : Tool) ∈
      discover 2 c2AutoObj c2AutoCfg "a") ∧
    ((⟨"a__admin__delete_all", "Lists items.", [], []⟩ : Tool).name ≠
      "a" ++ "__" ++ "delete_item") :=
  ⟨by decide,
   c2_guided_restrictive.1 0 c2Obj [] ["list_items"] none "a"
     (genSchemaTool ("a" ++ "__" ++ "list_items") c3Sig) (by decide),
   c2_guided_restrictive.2.1 0 c2Obj none "a"
     (genSchemaTool ("a" ++ "__" ++ "list_items") c3Sig) (by decide),
   by decide,
   c2_guided_restrictive.2.2 1 c2AutoObj none "a"
     (⟨"a__admin__delete_all", "Lists items.", [], []⟩ : Tool) (by decide)⟩

/-- C3, counterexample: a guided config (the `operations_groups` key is
present) with no `include_methods` key at all discovers nothing at that node,
even though the node has an eligible public method `m`; the claim that an
absent list means "include all eligible operations" fails on the code. -/
theorem c3_counterexample :
    discover 1 c3Obj c3Cfg "a" = [] ∧
    c3Obj.attr "m" = some (Mem.method c3Sig) ∧
    startsUnderscore "m" = false :=
  ⟨rfl, rfl, rfl⟩

/-- C3, amended: in guided mode, method discovery at a node is governed by the
presence of the `include_methods` key, not merely of a list.  First part: when
the key is present with a null value, every eligible public method of the node
is kept.  Second part: when the key is absent, no method of the node is kept —
every discovered tool comes from recursion into a declared sub-group.  Third
part: when the key is present (with any value), every discovered tool is
either a method of the current node passing the include filter or comes from
recursion into a declared sub-group — so recursion is restricted to the
explicitly declared sub-groups in both cases. -/
theorem c3_include_methods :
    (∀ (fuel : Nat) (o : Obj) (gs : List Config) (nmOpt : Option String)
        (pre : String) (n : String) (m : MethodSig),
      (n, Mem.method m) ∈ o.members → startsUnderscore n = false →
      genSchemaTool (pre ++ "__" ++ n) m ∈
        discover (fuel + 1) o (Config.mk (some gs) (some none) nmOpt) pre) ∧
    (∀ (fuel : Nat) (o : Obj) (gs : List Config) (nmOpt : Option String)
        (pre : String) (t : Tool),
      t ∈ discover (fuel + 1) o (Config.mk (some gs) none nmOpt) pre →
      ∃ gc ∈ gs, ∃ g mem, gc.cfgName = some g ∧ g ≠ "" ∧ o.attr g = some mem ∧
        mem.truthy = true ∧ t ∈ discover fuel mem.toObj gc (pre ++ "__" ++ g)) ∧
    (∀ (fuel : Nat) (o : Obj) (gs : List Config) (incOpt : Option (List String))
        (nmOpt : Option String) (pre : String) (t : Tool),
      t ∈ discover (fuel + 1) o (Config.mk (some gs) (some incOpt) nmOpt) pre →
      (∃ n m, (n, Mem.method m) ∈ o.members ∧ matchesInclude incOpt n = true ∧
          startsUnderscore n = false ∧ t = genSchemaTool (pre ++ "__" ++ n) m) ∨
      (∃ gc ∈ gs, ∃ g mem, gc.cfgName = some g ∧ g ≠ "" ∧ o.attr g = some mem ∧
          mem.truthy = true ∧ t ∈ discover fuel mem.toObj gc (pre ++ "__" ++ g))) := by
  refine ⟨?_, ?_, ?_⟩
  · intro fuel o gs nmOpt pre n m hmem hsu
    simp only [discover, Config.opGroups, Config.includeMethods]
    refine List.mem_append.2 (Or.inl ?_)
    unfold methodTools
    refine List.mem_filterMap.2 ⟨(n, Mem.method m), hmem, ?_⟩
    simp only [hsu, matchesInclude, Bool.not_false, Bool.and_self, if_pos]
  · intro fuel o gs nmOpt pre t ht
    rcases mem_discover_guided_any ht with ⟨inc, n, m, hik, _⟩ | hgrp
    · exact Option.noConfusion hik
    · exact hgrp
  · intro fuel o gs incOpt nmOpt pre t ht
    rcases mem_discover_guided_any ht with ⟨inc, n, m, hik, hin, hmi, hsu, heq⟩ | hgrp
    · have hinc : incOpt = inc := Option.some.inj hik
      rw [← hinc] at hmi
      exact Or.inl ⟨n, m, hin, hmi, hsu, heq⟩
    · exact Or.inr hgrp

/-- C3, witness: with the `include_methods` key present and null, the eligible
method `m` of the concrete node is kept under a guided config that declares no
sub-groups. -/
theorem c3_include_methods_witness :
    (("m", Mem.method c3Sig) ∈ c3Obj.members) ∧ startsUnderscore "m" = false ∧
    genSchemaTool ("a" ++ "__" ++ "m") c3Sig ∈
      discover 1 c3Obj (Config.mk (some []) (some none) none) "a" :=
  ⟨List.mem_singleton.2 rfl, rfl,
   c3_include_methods.1 0 c3Obj [] none "a" "m" c3Sig (List.mem_singleton.2 rfl) rfl⟩

theorem execAndSerialize_returns_ok (v : RValue) :
    ∃ data truncated,
      execAndSerialize (Outcome.returns v) = Except.ok (mcpEnvelope data truncated) := by
  cases v with
  | vIter elems r =>
    by_cases h : SERIALIZATION_LIMIT < ((elems.take (SERIALIZATION_LIMIT + 1)).length)
    · exact ⟨serialize (RValue.vList
          ((elems.take (SERIALIZATION_LIMIT + 1)).take SERIALIZATION_LIMIT)), true,
        by simp only [execAndSerialize, if_pos h]⟩
    · exact ⟨serialize (RValue.vList (elems.take (SERIALIZATION_LIMIT + 1))), false,
        by simp only [execAndSerialize, if_neg h]⟩
  | vStr s => exact ⟨_, false, rfl⟩
  | vInt i => exact ⟨_, false, rfl⟩
  | vFloat f => exact ⟨_, false, rfl⟩
  | vBool b => exact ⟨_, false, rfl⟩
  | vNone => exact ⟨_, false, rfl⟩
  | vList xs => exact ⟨_, false, rfl⟩
  | vDict kvs => exact ⟨_, false, rfl⟩
  | vObj d s => exact ⟨_, false, rfl⟩

/-- C4, counterexample: a successfully completed call (an operation returning
null) produces an envelope whose keys are `result` and `_mcp_metadata`; the
key named `metadata` claimed by the specification does not occur. -/
theorem c4_counterexample :
    envelopeKeys (execAndSerialize (Outcome.returns RValue.vNone)) =
      ["result", "_mcp_metadata"] ∧
    envelopeKeys (execAndSerialize (Outcome.returns RValue.vNone)) ≠
      ["result", "metadata"] ∧
    "metadata" ∉ envelopeKeys (execAndSerialize (Outcome.returns RValue.vNone)) := by
  refine ⟨rfl, ?_, ?_⟩
  · intro h
    rw [show envelopeKeys (execAndSerialize (Outcome.returns RValue.vNone)) =
        ["result", "_mcp_metadata"] from rfl] at h
    simp at h
  · intro h
    rw [show envelopeKeys (execAndSerialize (Outcome.returns RValue.vNone)) =
        ["result", "_mcp_metadata"] from rfl] at h
    simp at h

/-- C4, amended: every successfully completed call returns a mapping with
exactly the keys `result` (the serialized value) and `_mcp_metadata`, the
latter a mapping containing the boolean field `truncated`. -/
theorem c4_envelope_shape (v : RValue) :
    ∃ data truncated,
      execAndSerialize (Outcome.returns v) = Except.ok (mcpEnvelope data truncated) ∧
      mcpEnvelope data truncated =
        RValue.vDict [("result", data),
          ("_mcp_metadata", RValue.vDict [("truncated", RValue.vBool truncated)])] := by
  obtain ⟨data, truncated, h⟩ := execAndSerialize_returns_ok v
  exact ⟨data, truncated, h, rfl⟩

/-- C5: bounded truncation of iterables.  The materialized slice never exceeds
`SERIALIZATION_LIMIT + 1 = 31` elements; an iterable yielding at most 30
elements is passed through whole with `truncated = false`, and one yielding 31
or more is capped to its first 30 elements with `truncated = true`. -/
theorem c5_truncation (elems : List RValue) (r : String) :
    (elems.take (SERIALIZATION_LIMIT + 1)).length ≤ SERIALIZATION_LIMIT + 1 ∧
    execAndSerialize (Outcome.returns (RValue.vIter elems r)) =
      Except.ok (mcpEnvelope
        (serialize (RValue.vList
          (if elems.length ≤ SERIALIZATION_LIMIT then elems
           else elems.take SERIALIZATION_LIMIT)))
        (decide (SERIALIZATION_LIMIT < elems.length))) := by
  have hlen : (elems.take (SERIALIZATION_LIMIT + 1)).length =
      min (SERIALIZATION_LIMIT + 1) elems.length := List.length_take _ _
  constructor
  · rw [hlen]; exact min_le_left _ _
  · by_cases h : elems.length ≤ SERIALIZATION_LIMIT
    · have hcond : ¬ SERIALIZATION_LIMIT < ((elems.take (SERIALIZATION_LIMIT + 1)).length) := by
        rw [hlen]; omega
      simp only [execAndSerialize, if_neg hcond]
      rw [if_pos h]
      rw [List.take_of_length_le (by omega)]
      rw [decide_eq_false (by omega)]
    · have hcond : SERIALIZATION_LIMIT < ((elems.take (SERIALIZATION_LIMIT + 1)).length) := by
        rw [hlen]; omega
      simp only [execAndSerialize, if_pos hcond]
      rw [if_neg h]
      rw [List.take_take, show min SERIALIZATION_LIMIT (SERIALIZATION_LIMIT + 1) =
        SERIALIZATION_LIMIT from by omega]
      rw [decide_eq_true (by omega)]

theorem walkPath_error {tn : String} : ∀ (p : List String) (cur : Mem) (e : ExecError),
    walkPath tn cur p = Except.error e → ∃ msg, e = ExecError.valueError msg := by
  intro p
  induction p with
  | nil =>
    intro cur e h
    simp [walkPath] at h
  | cons x rest ih =>
    intro cur e h
    simp only [walkPath] at h
    cases hattr : cur.toObj.attr x with
    | none =>
      rw [hattr] at h
      injection h with h2
      exact ⟨_, h2.symm⟩
    | some m =>
      rw [hattr] at h
      simp only at h
      by_cases htr : m.truthy = true
      · rw [if_pos htr] at h
        exact ih m e h
      · rw [if_neg htr] at h
        injection h with h2
        exact ⟨_, h2.symm⟩

theorem fetchMethod_error (mname : String) (cur : Mem) (e : ExecError)
    (h : fetchMethod mname cur = Except.error e) : ∃ msg, e = ExecError.valueError msg := by
  simp only [fetchMethod] at h
  cases hattr : cur.toObj.attr mname with
  | none =>
    rw [hattr] at h
    injection h with h2
    exact ⟨_, h2.symm⟩
  | some m =>
    rw [hattr] at h
    simp only at h
    by_cases htr : m.truthy = true
    · rw [if_pos htr] at h
      exact Except.noConfusion h
    · rw [if_neg htr] at h
      injection h with h2
      exact ⟨_, h2.symm⟩

theorem resolveTool_error_classified (name : String) (clients : List (String × Obj))
    (amap : List (String × String)) (e : ExecError)
    (h : resolveTool name clients amap = Except.error e) :
    ∃ msg, e = ExecError.valueError msg := by
  simp only [resolveTool] at h
  cases ha : alookup amap (parseToolName name).1 with
  | none =>
    rw [ha] at h
    injection h with h2
    exact ⟨_, h2.symm⟩
  | some cp =>
    rw [ha] at h
    simp only at h
    by_cases hcp : cp = ""
    · rw [if_pos hcp] at h
      injection h with h2
      exact ⟨_, h2.symm⟩
    · rw [if_neg hcp] at h
      cases hc : alookup clients cp with
      | none =>
        rw [hc] at h
        injection h with h2
        exact ⟨_, h2.symm⟩
      | some root =>
        rw [hc] at h
        simp only at h
        by_cases ht : root.truthy = true
        · rw [if_pos ht] at h
          cases hw : walkPath name (Mem.group root) (parseToolName name).2.1 with
          | error e2 =>
            rw [hw] at h
            injection h with h2
            obtain ⟨msg, hm⟩ := walkPath_error _ _ _ hw
            exact ⟨msg, by rw [← h2, hm]⟩
          | ok cur =>
            rw [hw] at h
            exact fetchMethod_error _ _ _ h
        · rw [if_neg ht] at h
          injection h with h2
          exact ⟨_, h2.symm⟩

theorem execute_tool_of_resolve_error {name : String} {clients : List (String × Obj)}
    {amap : List (String × String)} {e : ExecError}
    (h : resolveTool name clients amap = Except.error e) :
    execute_tool name clients amap = Except.error e := by
  unfold execute_tool
  rw [h]

/-- C6, amended: every resolution failure (unknown or falsy alias, client,
group segment, or final member) is raised as a classified `ValueError` before
any execution, carried to the HTTP boundary as status 404, and the error for
an absent alias such as `badalias` names that alias in its message.  (A
present but truthy non-callable final member is *not* a resolution failure:
it passes resolution and fails during execution with status 500 — see the
counterexample.) -/
theorem c6_resolution_errors :
    (∀ (name : String) (clients : List (String × Obj)) (amap : List (String × String))
        (e : ExecError),
      resolveTool name clients amap = Except.error e →
      (∃ msg, e = ExecError.valueError msg) ∧ statusOf e = 404 ∧
      execute_tool name clients amap = Except.error e) ∧
    (∀ (clients : List (String × Obj)) (amap : List (String × String)),
      alookup amap "badalias" = none →
      resolveTool "badalias__op" clients amap =
        Except.error (ExecError.valueError (aliasErrMsg "badalias__op" "badalias")) ∧
      ∃ l r, aliasErrMsg "badalias__op" "badalias" = l ++ "badalias" ++ r) := by
  constructor
  · intro name clients amap e h
    obtain ⟨msg, hm⟩ := resolveTool_error_classified name clients amap e h
    exact ⟨⟨msg, hm⟩, by rw [hm]; rfl, execute_tool_of_resolve_error h⟩
  · intro clients amap ha
    constructor
    · have hp : (parseToolName "badalias__op").1 = "badalias" := rfl
      simp only [resolveTool]
      rw [hp, ha]
    · exact ⟨"Invalid tool_name format or alias: ",
        "__op (No client found for alias 'badalias'.)", rfl⟩

/-- C6, counterexample: a final member that is present, truthy, and not
callable passes resolution (so no resolution error and no 404 is produced);
the call instead fails during execution with the generic execution failure,
mapped to status 500. -/
theorem c6_counterexample :
    resolveTool "a__op" c6Clients c6Aliases = Except.ok (Mem.plain true) ∧
    execute_tool "a__op" c6Clients c6Aliases =
      Except.error (ExecError.opFailed notCallableMsg) ∧
    statusOf (ExecError.opFailed notCallableMsg) = 500 :=
  ⟨rfl, rfl, rfl⟩

/-- C6, witness: the amended theorem applied to a concrete unresolvable name
(empty maps) and to the concrete absent alias `badalias`. -/
theorem c6_resolution_errors_witness :
    resolveTool "x" [] [] = Except.error (ExecError.valueError (aliasErrMsg "x" "x")) ∧
    ((∃ msg, ExecError.valueError (aliasErrMsg "x" "x") = ExecError.valueError msg) ∧
      statusOf (ExecError.valueError (aliasErrMsg "x" "x")) = 404 ∧
      execute_tool "x" [] [] = Except.error (ExecError.valueError (aliasErrMsg "x" "x"))) ∧
    alookup ([] : List (String × String)) "badalias" = none ∧
    (resolveTool "badalias__op" [] [] =
        Except.error (ExecError.valueError (aliasErrMsg "badalias__op" "badalias")) ∧
      ∃ l r, aliasErrMsg "badalias__op" "badalias" = l ++ "badalias" ++ r) :=
  ⟨rfl, c6_resolution_errors.1 "x" [] [] _ rfl, rfl, c6_resolution_errors.2 [] [] rfl⟩

/-- C10: tool-name parsing is total.  Splitting any string on the double
separator yields at least one segment; a name with no separator occurrence
parses with the single segment as both the alias and the operation name and an
empty group path; and every unresolvable name fails with a classified
resolution error, never an out-of-range access. -/
theorem c10_parse_total :
    (∀ s : String, 1 ≤ (splitDunder s).length) ∧
    (∀ s : String, splitDunder s = [s] → parseToolName s = (s, [], s)) ∧
    (∀ (name : String) (clients : List (String × Obj)) (amap : List (String × String))
        (e : ExecError),
      resolveTool name clients amap = Except.error e →
      ∃ msg, e = ExecError.valueError msg) := by
  refine ⟨fun s => ?_, fun s h => ?_, resolveTool_error_classified⟩
  · unfold splitDunder
    rw [List.length_map]
    exact List.length_pos.2 (splitSep_ne_nil s.data)
  · simp only [parseToolName, h]
    rfl

/-- C10, witness: the parse totality applied to the separator-free name `foo`
and to a concrete unresolvable name. -/
theorem c10_parse_total_witness :
    splitDunder "foo" = ["foo"] ∧ parseToolName "foo" = ("foo", [], "foo") ∧
    resolveTool "foo" [] [] = Except.error (ExecError.valueError (aliasErrMsg "foo" "foo")) ∧
    (∃ msg, ExecError.valueError (aliasErrMsg "foo" "foo") = ExecError.valueError msg) :=
  ⟨rfl, c10_parse_total.2.1 "foo" rfl, rfl, c10_parse_total.2.2 "foo" [] [] _ rfl⟩

theorem mem_schemaRequired {params : List Param} {p : Param}
    (hnd : (params.map Param.name).Nodup) (hmem : p ∈ params)
    (hex : p.name ∉ excluded_params) :
    p.name ∈ schemaRequired params ↔ p.hasDefault = false := by
  constructor
  · intro hin
    obtain ⟨q, hq, hfq⟩ := List.mem_filterMap.1 hin
    by_cases hqx : q.name ∈ excluded_params
    · rw [if_pos hqx] at hfq; exact Option.noConfusion hfq
    · rw [if_neg hqx] at hfq
      by_cases hqd : q.hasDefault
      · rw [if_pos hqd] at hfq; exact Option.noConfusion hfq
      · rw [if_neg hqd] at hfq
        have hqn : q.name = p.name := Option.some.inj hfq
        have : q = p := List.inj_on_of_nodup_map hnd hq hmem hqn
        rw [← this]
        exact Bool.not_eq_true _ ▸ (by simpa using hqd)
  · intro hd
    refine List.mem_filterMap.2 ⟨p, hmem, ?_⟩
    rw [if_neg hex, hd]
    simp

theorem schemaProps_cons (q : Param) (rest : List Param) :
    schemaProps (q :: rest) =
      if q.name ∈ excluded_params then schemaProps rest
      else (q.name, annType q.ann) :: schemaProps rest := by
  unfold schemaProps
  rw [List.filterMap_cons]
  by_cases h : q.name ∈ excluded_params
  · rw [if_pos h, if_pos h]
  · rw [if_neg h, if_neg h]

theorem alookup_schemaProps {params : List Param} {p : Param}
    (hnd : (params.map Param.name).Nodup) (hmem : p ∈ params)
    (hex : p.name ∉ excluded_params) :
    alookup (schemaProps params) p.name = some (annType p.ann) := by
  induction params with
  | nil => simp at hmem
  | cons q rest ih =>
    simp only [List.map_cons, List.nodup_cons] at hnd
    rcases List.mem_cons.1 hmem with heq | hm
    · rw [heq] at hex ⊢
      rw [schemaProps_cons, if_neg hex]
      simp [alookup]
    · have hqn : q.name ≠ p.name := by
        intro hk
        exact hnd.1 (hk ▸ List.mem_map.2 ⟨p, hm, rfl⟩)
      rw [schemaProps_cons]
      by_cases hqx : q.name ∈ excluded_params
      · rw [if_pos hqx]
        exact ih hnd.2 hm
      · rw [if_neg hqx]
        rw [show alookup ((q.name, annType q.ann) :: schemaProps rest) p.name =
            alookup (schemaProps rest) p.name by simp [alookup, hqn]]
        exact ih hnd.2 hm

/-- C8: parameter schema derivation.  For every reflected parameter outside
the fixed exclusion set (with distinct parameter names, as Python signatures
guarantee): the parameter appears in the `required` list exactly when it has
no default value; its entry in `properties` is its inferred type; and the
inference maps numeric declared types to `number`, boolean to `boolean`,
composite and collection types to `object`, and everything else to `string`. -/
theorem c8_param_schema (params : List Param) (p : Param)
    (hmem : p ∈ params) (hex : p.name ∉ excluded_params)
    (hnd : (params.map Param.name).Nodup) :
    (p.name ∈ schemaRequired params ↔ p.hasDefault = false) ∧
    alookup (schemaProps params) p.name = some (annType p.ann) ∧
    ((p.ann = Ann.aInt ∨ p.ann = Ann.aFloat) → annType p.ann = "number") ∧
    (p.ann = Ann.aBool → annType p.ann = "boolean") ∧
    ((p.ann = Ann.aList ∨ p.ann = Ann.aDict) → annType p.ann = "object") ∧
    ((p.ann = Ann.aStr ∨ p.ann = Ann.aEmpty ∨ p.ann = Ann.aOther) →
      annType p.ann = "string") := by
  refine ⟨mem_schemaRequired hnd hmem hex, alookup_schemaProps hnd hmem hex, ?_, ?_, ?_, ?_⟩
  · rintro (h | h) <;> rw [h] <;> rfl
  · intro h; rw [h]; rfl
  · rintro (h | h) <;> rw [h] <;> rfl
  · rintro (h | h | h) <;> rw [h] <;> rfl

/-- C8, witness: a two-parameter signature — `flag : bool` without a default is
required with inferred type `boolean`; `count : int` with a default is not
required and infers `number`. -/
theorem c8_param_schema_witness :
    (⟨"flag", Ann.aBool, false⟩ : Param) ∈
      [(⟨"flag", Ann.aBool, false⟩ : Param), ⟨"count", Ann.aInt, true⟩] ∧
    ("flag" ∉ excluded_params) ∧
    ([(⟨"flag", Ann.aBool, false⟩ : Param), ⟨"count", Ann.aInt, true⟩].map Param.name).Nodup ∧
    (("flag" ∈ schemaRequired [⟨"flag", Ann.aBool, false⟩, ⟨"count", Ann.aInt, true⟩]) ↔
      (false = false)) ∧
    alookup (schemaProps [⟨"flag", Ann.aBool, false⟩, ⟨"count", Ann.aInt, true⟩]) "flag" =
      some (annType Ann.aBool) ∧
    schemaRequired [(⟨"flag", Ann.aBool, false⟩ : Param), ⟨"count", Ann.aInt, true⟩] = ["flag"] ∧
    annType Ann.aBool = "boolean" :=
  ⟨by decide, by decide, by decide,
   (c8_param_schema [⟨"flag", Ann.aBool, false⟩, ⟨"count", Ann.aInt, true⟩]
     ⟨"flag", Ann.aBool, false⟩ (by decide) (by decide) (by decide)).1,
   (c8_param_schema [⟨"flag", Ann.aBool, false⟩, ⟨"count", Ann.aInt, true⟩]
     ⟨"flag", Ann.aBool, false⟩ (by decide) (by decide) (by decide)).2.1,
   by decide, rfl⟩

end SdkMcp
